import Mathlib

/-!
Verification of the XUI-X360-FRONTEND auxiliary scripts against their
natural-language specification.  The Python sources are shallowly embedded:
pure text processing becomes functions on `List Char` / `String`, the
update-checker's subprocess/network effects become explicit parameters
(fetch results, exit codes of the git commands, installer availability),
and exceptions become `Except`/`Option` results.
-/

/-! ## Shared character/string utilities (Python `str.strip`, `\s`) -/

/-- The newline character, kept as a named constant. -/
def newlineChar : Char := Char.ofNat 10

/-- The single-quote character used by the heredoc opening pattern. -/
def quoteChar : Char := Char.ofNat 39

/-- Python whitespace (`\s` of the `re` module / `str.strip` default) for the
characters that can occur inside a line. -/
def isPySpace (c : Char) : Bool :=
  c = ' ' || c = Char.ofNat 9 || c = newlineChar || c = Char.ofNat 13 ||
  c = Char.ofNat 11 || c = Char.ofNat 12

/-- `str.strip()` on a character list: drop whitespace from both ends. -/
def stripList (l : List Char) : List Char :=
  ((l.dropWhile isPySpace).reverse.dropWhile isPySpace).reverse

/-- `str.strip()` on a `String`. -/
def pyStrip (s : String) : String := ⟨stripList s.data⟩

/-! ## Update checker: `src/win/xui_update_check.py`

`remote_meta` fetches `https://api.github.com/repos/REPO/commits/BRANCH`;
the network interaction is modelled by an `Except String GhCommit` input
(`Except.error` = the `urllib`/JSON code raised). -/

/-- The fields `remote_meta` reads from the GitHub commit JSON. -/
structure GhCommit where
  sha : String
  date : String
  url : String
deriving Repr, DecidableEq

/-- Result dictionary of `remote_meta`: either `{"ok": True, ...}` with a
branch, sha, date and url, or `{"ok": False, "error": ..., "branch": ...}`. -/
inductive RMeta where
  | ok (branch sha date url : String)
  | err (error branch : String)
deriving Repr, DecidableEq

/-- `remote_meta` (xui_update_check.py lines 87-104): on any exception return
`ok=False` with the error text; on success strip the sha and reject an empty
one with error `missing-remote-sha`. -/
def remote_meta (branch : String) (fetched : Except String GhCommit) : RMeta :=
  match fetched with
  | Except.error e => RMeta.err e branch
  | Except.ok c =>
      let sha := pyStrip c.sha
      if sha = "" then RMeta.err "missing-remote-sha" branch
      else RMeta.ok branch sha c.date c.url

/-- `read_state_commit` (lines 27-34).  `none` models a missing or unparsable
`update_state.json`; `some none` a parsed file whose `installed_commit` field
is absent or falsy; `some (some s)` the field's string value. -/
def read_state_commit (raw : Option (Option String)) : String :=
  match raw with
  | none => ""
  | some none => ""
  | some (some s) => pyStrip s

/-- Local-commit resolution at the start of `compute_status` (lines 124-133):
use the state-file commit; when it is empty fall back to
`git -C SRC rev-parse HEAD` when that is possible.  `gitHead = some h` models
"`SRC/.git` exists, `git` is on PATH and `rev-parse` succeeded with stripped
output `h`"; `none` models any of those failing. -/
def resolve_local_commit (stateCommit : String) (gitHead : Option String) : String :=
  if stateCommit = "" then
    match gitHead with
    | some h => h
    | none => ""
  else stateCommit

/-- The observable outcome of `compute_status` (lines 123-176), before the
final `return 10 if required else 0`. -/
structure StatusOut where
  checked : Bool
  required : Bool
  reason : String
  branch : String
  local_commit : String
  remote_commit : String
  remote_date : String
  remote_url : String
deriving Repr, DecidableEq

/-- Core of `compute_status` (lines 135-158) as a function of the resolved
local commit and the `remote_meta` result. -/
def compute_status (local_commit : String) (meta : RMeta) : StatusOut :=
  match meta with
  | RMeta.err e b =>
      { checked := false, required := false,
        reason := "remote-unavailable:" ++ e, branch := b,
        local_commit := local_commit, remote_commit := "",
        remote_date := "", remote_url := "" }
  | RMeta.ok b sha date url =>
      if local_commit = "" then
        { checked := true, required := true, reason := "missing-local-version",
          branch := b, local_commit := local_commit, remote_commit := sha,
          remote_date := date, remote_url := url }
      else if local_commit ≠ sha then
        { checked := true, required := true, reason := "outdated",
          branch := b, local_commit := local_commit, remote_commit := sha,
          remote_date := date, remote_url := url }
      else
        { checked := true, required := false, reason := "up-to-date",
          branch := b, local_commit := local_commit, remote_commit := sha,
          remote_date := date, remote_url := url }

/-- `return 10 if required else 0` (line 176). -/
def status_exit (required : Bool) : Nat := if required then 10 else 0

/-- The whole status mode: local-commit resolution, remote check, exit code. -/
def compute_status_full (stateCommit : String) (gitHead : Option String)
    (meta : RMeta) : StatusOut :=
  compute_status (resolve_local_commit stateCommit gitHead) meta

/-- The JSON object printed by `emit_json` (lines 107-120). -/
structure EmitObj where
  checked : Bool
  mandatory : Bool
  update_required : Bool
  reason : String
  repo : String
  branch : String
  local_commit : String
  remote_commit : String
  remote_date : String
  remote_url : String
deriving Repr, DecidableEq

/-- `emit_json`: note the `mandatory` field is the literal `True`. -/
def emit_json (checked required : Bool)
    (reason repo branch localCommit remoteCommit remoteDate remoteUrl : String) :
    EmitObj :=
  { checked := checked, mandatory := true, update_required := required,
    reason := reason, repo := repo, branch := branch,
    local_commit := localCommit, remote_commit := remoteCommit,
    remote_date := remoteDate, remote_url := remoteUrl }

/-! ## Apply mode: `apply_update` (`src/win/xui_update_check.py` lines 212-291).

The subprocess and filesystem effects are modelled by an environment record:
exit codes of the git commands and the installer, availability flags, and
whether `write_state` succeeds.  The function returns the ordered list of
steps that were executed, the return code (`none` models the uncaught
`FileNotFoundError` from `find_installer`), and whether the update state
file was written. -/

/-- Whether a `remote_meta` result is the `ok=True` dictionary. -/
def RMeta.isOk : RMeta → Bool
  | RMeta.ok _ _ _ _ => true
  | RMeta.err _ _ => false

/-- The externally visible steps of `apply_update`, in program order. -/
inductive Step where
  | fetchMeta
  | gitClone
  | gitFetch
  | gitCheckout
  | gitReset
  | gitClean
  | installer
  | writeState
deriving Repr, DecidableEq

/-- Kind of the installer file found by `find_installer`. -/
inductive InstallerKind where
  | ps1
  | batCmd
  | other
deriving Repr, DecidableEq

/-- Environment for one run of `apply_update`. -/
structure ApplyEnv where
  gitAvailable : Bool
  fetched : Except String GhCommit
  gitDirExists : Bool
  rcClone : Int
  rcFetch : Int
  rcCheckout : Int
  rcReset : Int
  rcClean : Int
  installerFound : Bool
  installerKind : InstallerKind
  psAvailable : Bool
  rcInstaller : Int
  stateWriteOk : Bool
deriving Repr

/-- Result of one run of `apply_update`. -/
structure ApplyResult where
  trace : List Step
  exitCode : Option Int
  stateWritten : Bool
deriving Repr, DecidableEq

/-- Steps of `apply_update` after the metadata fetch (lines 222-291), as a
function of the `remote_meta` result: clone when `SRC/.git` is absent, fetch,
checkout, hard reset, `git clean -fd` (exit code ignored), installer lookup
and run, and finally `write_state` guarded by a `try`.  `exitCode = none`
models the uncaught `FileNotFoundError` of `find_installer`. -/
def apply_update_after_meta (env : ApplyEnv) : RMeta → ApplyResult
  | RMeta.err _ _ => ⟨[Step.fetchMeta], some 1, false⟩
  | RMeta.ok _ _ _ _ =>
      if env.gitDirExists = false ∧ env.rcClone ≠ 0 then
        ⟨[Step.fetchMeta, Step.gitClone], some env.rcClone, false⟩
      else if env.rcFetch ≠ 0 then
        ⟨[Step.fetchMeta] ++ (if env.gitDirExists then [] else [Step.gitClone]) ++
           [Step.gitFetch], some env.rcFetch, false⟩
      else if env.rcCheckout ≠ 0 then
        ⟨[Step.fetchMeta] ++ (if env.gitDirExists then [] else [Step.gitClone]) ++
           [Step.gitFetch, Step.gitCheckout], some env.rcCheckout, false⟩
      else if env.rcReset ≠ 0 then
        ⟨[Step.fetchMeta] ++ (if env.gitDirExists then [] else [Step.gitClone]) ++
           [Step.gitFetch, Step.gitCheckout, Step.gitReset], some env.rcReset, false⟩
      else if env.installerFound = false then
        ⟨[Step.fetchMeta] ++ (if env.gitDirExists then [] else [Step.gitClone]) ++
           [Step.gitFetch, Step.gitCheckout, Step.gitReset, Step.gitClean], none, false⟩
      else if env.installerKind = InstallerKind.ps1 ∧ env.psAvailable = false then
        ⟨[Step.fetchMeta] ++ (if env.gitDirExists then [] else [Step.gitClone]) ++
           [Step.gitFetch, Step.gitCheckout, Step.gitReset, Step.gitClean], some 1, false⟩
      else if env.rcInstaller ≠ 0 then
        ⟨[Step.fetchMeta] ++ (if env.gitDirExists then [] else [Step.gitClone]) ++
           [Step.gitFetch, Step.gitCheckout, Step.gitReset, Step.gitClean, Step.installer],
         some env.rcInstaller, false⟩
      else
        ⟨[Step.fetchMeta] ++ (if env.gitDirExists then [] else [Step.gitClone]) ++
           [Step.gitFetch, Step.gitCheckout, Step.gitReset, Step.gitClean, Step.installer] ++
           (if env.stateWriteOk then [Step.writeState] else []),
         some 0, env.stateWriteOk⟩

/-- `apply_update` (lines 212-291): the git presence check, the metadata
fetch, then the post-fetch steps. -/
def apply_update (branch : String) (env : ApplyEnv) : ApplyResult :=
  if env.gitAvailable = false then ⟨[], some 1, false⟩
  else apply_update_after_meta env (remote_meta branch env.fetched)


/-- The canonical program order of `apply_update`'s steps. -/
def applyStepOrder : List Step :=
  [Step.fetchMeta, Step.gitClone, Step.gitFetch, Step.gitCheckout,
   Step.gitReset, Step.gitClean, Step.installer, Step.writeState]

/-! ## Slot machine: `SlotMachineDialog` in
`src/xui/pyqt_dashboard_improved_fixed.py` (Linux variant) and
`src/xui/win/pyqt_dashboard_improved.py` (Windows variant).

`_resolve` reads the three reel labels and adds a win to `self.credits`;
`spin` charges 10 credits and starts the reel timers only when affordable.
Each variant is embedded separately so that their equality is a theorem. -/

/-- `_resolve` win computation, Linux variant (lines 356-374). -/
def slot_resolve_fixed (a b c : String) : Int :=
  if a = b ∧ b = c then (if a = "7" then 200 else 50)
  else if a = b ∨ b = c ∨ a = c then 20
  else 0

/-- `_resolve` win computation, Windows variant (lines 93-111). -/
def slot_resolve_win (a b c : String) : Int :=
  if a = b ∧ b = c then (if a = "7" then 200 else 50)
  else if a = b ∨ b = c ∨ a = c then 20
  else 0

/-- Credit balance after `_resolve`, Linux variant. -/
def slot_credits_after_fixed (credits : Int) (a b c : String) : Int :=
  credits + slot_resolve_fixed a b c

/-- Credit balance after `_resolve`, Windows variant. -/
def slot_credits_after_win (credits : Int) (a b c : String) : Int :=
  credits + slot_resolve_win a b c

/-- `spin`, Linux variant (lines 342-354): returns the new credit balance and
whether the reel timers were started. -/
def spin_fixed (credits : Int) : Int × Bool :=
  if credits < 10 then (credits, false) else (credits - 10, true)

/-- `spin`, Windows variant (lines 79-91). -/
def spin_win (credits : Int) : Int × Bool :=
  if credits < 10 then (credits, false) else (credits - 10, true)

/-! ## Gamepad repeat logic: `GamepadListener` in
`src/xui/pyqt_dashboard_improved_fixed.py` (lines 227-277).

`poll` reads an axis value and, per direction, calls `_maybe_emit` when it is
past the deadzone, or clears both of the axis's held flags when it is back
inside; `_maybe_emit` emits on the first held poll and then again only every
`repeat_rate` milliseconds.  Axis values and times are modelled as rationals
(`time.time() * 1000.0` and pygame axis floats). -/

/-- Per-direction repeat state: `self._held[d]` and `self._last_emit[d]`. -/
structure DirState where
  held : Bool
  lastEmit : ℚ
deriving Repr, DecidableEq

/-- `_maybe_emit` (lines 265-277): returns the updated state and whether the
direction's signal was emitted. -/
def maybe_emit (s : DirState) (now rate : ℚ) : DirState × Bool :=
  if s.held = false then (⟨true, now⟩, true)
  else if rate ≤ now - s.lastEmit then (⟨true, now⟩, true)
  else (s, false)

/-- The three zones an axis reading can fall in relative to the deadzone. -/
inductive AxisZone where
  | low
  | mid
  | high
deriving Repr, DecidableEq

/-- The branch selected by `poll` for one axis: `ax < -deadzone`,
`ax > deadzone`, or the deadzone `else` branch. -/
def axisZone (ax dz : ℚ) : AxisZone :=
  if ax < -dz then AxisZone.low
  else if dz < ax then AxisZone.high
  else AxisZone.mid

/-- The two direction states attached to one axis (left/right or up/down). -/
structure AxisPairState where
  negDir : DirState
  posDir : DirState
deriving Repr, DecidableEq

/-- One `poll` iteration for one axis (lines 234-247): the updated pair state
and the (negative-direction, positive-direction) emission flags. -/
def poll_axis (st : AxisPairState) (ax dz now rate : ℚ) :
    AxisPairState × Bool × Bool :=
  match axisZone ax dz with
  | AxisZone.low =>
      let r := maybe_emit st.negDir now rate
      (⟨r.1, st.posDir⟩, r.2, false)
  | AxisZone.high =>
      let r := maybe_emit st.posDir now rate
      (⟨st.negDir, r.1⟩, false, r.2)
  | AxisZone.mid =>
      (⟨⟨false, st.negDir.lastEmit⟩, ⟨false, st.posDir.lastEmit⟩⟩, false, false)

/-! ## Heredoc extractor: `src/win/extract_xui_payload.py`.

The shell script text and the targets are `List Char`; the regex
`cat > "<target>" <<'([^']+)'\n` of `extract_last_heredoc` is embedded as a
deterministic matcher (the greedy `[^']+` cannot backtrack), `finditer` as a
left-to-right non-overlapping scan. -/

/-- Opening of the heredoc pattern up to and including the quote that
precedes the marker: `cat > "<target>" <<'`. -/
def openingHead (target : List Char) : List Char :=
  "cat > ".toList ++ [Char.ofNat 34] ++ target ++ [Char.ofNat 34] ++
    " <<".toList ++ [quoteChar]

/-- If `pre` is a prefix of `t`, the remainder of `t`; otherwise `none`. -/
def dropPre : List Char → List Char → Option (List Char)
  | [], t => some t
  | _ :: _, [] => none
  | p :: ps, c :: cs => if p = c then dropPre ps cs else none

/-- One attempt of the compiled pattern at the start of `t`:
`cat > "<target>" <<'MARKER'` followed by a newline, with `MARKER` a
non-empty quote-free run (the greedy `[^']+` of the regex).  Returns the
marker and the text after the opening newline. -/
def matchOpening (target t : List Char) : Option (List Char × List Char) :=
  match dropPre (openingHead target) t with
  | none => none
  | some rest =>
      match rest.drop ((rest.takeWhile (fun c => c != quoteChar)).length) with
      | c1 :: c2 :: tail =>
          if rest.takeWhile (fun c => c != quoteChar) ≠ [] ∧ c1 = quoteChar ∧
              c2 = newlineChar then
            some (rest.takeWhile (fun c => c != quoteChar), tail)
          else none
      | _ => none

/-- `finditer` followed by taking the last match: scan left to right,
skipping over each match.  Structural fuel; callers pass `t.length`. -/
def scanLastAux (target : List Char) : Nat → List Char → Option (List Char × List Char)
  | 0, _ => none
  | _ + 1, [] => none
  | n + 1, c :: rest =>
      match matchOpening target (c :: rest) with
      | some (mk, tail) =>
          match scanLastAux target n tail with
          | some r => some r
          | none => some (mk, tail)
      | none => scanLastAux target n rest

/-- The last heredoc opening for `target` in `text`, with the remainder of
the text after its opening newline. -/
def lastOpening (target text : List Char) : Option (List Char × List Char) :=
  scanLastAux target text.length text

/-- `str.find` of `token` in `t`: index of the first occurrence. -/
def findSub (token : List Char) : List Char → Option Nat
  | [] => if (dropPre token ([] : List Char)).isSome then some 0 else none
  | c :: rest =>
      if (dropPre token (c :: rest)).isSome then some 0
      else (findSub token rest).map (· + 1)

/-- The closing token `"\n" + marker + "\n"`. -/
def endToken (mk : List Char) : List Char := newlineChar :: (mk ++ [newlineChar])

/-- `extract_last_heredoc` (src/win/extract_xui_payload.py lines 20-38).
`Except.error ()` models the raised `RuntimeError`. -/
def extract_last_heredoc (srcText target : List Char) :
    Except Unit (Option (List Char)) :=
  match lastOpening target srcText with
  | none => Except.ok none
  | some (mk, tail) =>
      match findSub (endToken mk) tail with
      | none => Except.error ()
      | some idx =>
          if tail.take idx ≠ [] ∧ (tail.take idx).getLast? ≠ some newlineChar then
            Except.ok (some (tail.take idx ++ [newlineChar]))
          else Except.ok (some (tail.take idx))

/-- A full heredoc opening line `cat > "<target>" <<'mk'` with its newline. -/
def openingFull (target mk : List Char) : List Char :=
  openingHead target ++ mk ++ [quoteChar, newlineChar]

/-- The opening for `target` with marker `mk` occurs at position `i`. -/
def OccursAt (text target : List Char) (i : Nat) (mk : List Char) : Prop :=
  mk ≠ [] ∧ quoteChar ∉ mk ∧ openingFull target mk <+: text.drop i

def cexTextC2 : List Char :=
  "Xcat > ".toList ++ [Char.ofNat 34, 't', Char.ofNat 34] ++
  " <<".toList ++ [quoteChar, 'M', quoteChar, newlineChar] ++
  "body".toList ++ [newlineChar, 'M', newlineChar]

def linesOfText : List Char → List (List Char)
  | [] => [[]]
  | c :: rest =>
      if c = newlineChar then [] :: linesOfText rest
      else
        match linesOfText rest with
        | l :: ls => (c :: l) :: ls
        | [] => [[c]]

def isOpeningLine (target line : List Char) : Bool :=
  match dropPre (openingHead target) line with
  | none => false
  | some rest =>
      decide (rest.takeWhile (fun c => c != quoteChar) ≠ []) &&
      decide (rest = rest.takeWhile (fun c => c != quoteChar) ++ [quoteChar])

def hasOpeningLine (target text : List Char) : Bool :=
  (linesOfText text).any (fun ln => isOpeningLine target ln)

def witTextC2 : List Char :=
  openingFull ['t'] ['M'] ++ "body".toList ++ [newlineChar, 'M', newlineChar] ++
    "after".toList

deriving instance DecidableEq for Except

/-- The fixed target list of `extract_xui_payload.py` (lines 8-17):
bash path inside the installer script, output file name, required flag. -/
def TARGETS : List (List Char × String × Bool) :=
  [("$DASH_DIR/pyqt_dashboard_improved.py".toList, "pyqt_dashboard_improved.py", true),
   ("$BIN_DIR/xui_webhub.py".toList, "xui_webhub.py", true),
   ("$BIN_DIR/xui_social_chat.py".toList, "xui_social_chat.py", true),
   ("$GAMES_DIR/store.py".toList, "xui_store_modern.py", true),
   ("$BIN_DIR/xui_global_guide.py".toList, "xui_global_guide.py", true),
   ("$BIN_DIR/xui_first_setup.py".toList, "xui_first_setup.py", false),
   ("$BIN_DIR/xui_game_lib.py".toList, "xui_game_lib.py", false),
   ("$BIN_DIR/xui_web_api.py".toList, "xui_web_api.py", false)]

/-- Observable outcome of `extract_xui_payload.main`: the exit code (`none`
models the uncaught `RuntimeError`), the files written (name, contents, in
order), and the `count` field of the manifest when one is written. -/
structure PayloadResult where
  exitCode : Option Nat
  written : List (String × List Char)
  manifestCount : Option Nat
deriving Repr, DecidableEq

/-- The extraction loop of `main` (lines 57-70): returns the files written,
the missing required bash targets, and whether a `RuntimeError` aborted the
loop (in which case the earlier writes have already happened). -/
def extractLoop (text : List Char) :
    List (List Char × String × Bool) →
      List (String × List Char) × List (List Char) × Bool
  | [] => ([], [], false)
  | (tgt, outName, req) :: rest =>
      match extract_last_heredoc text tgt with
      | Except.error _ => ([], [], true)
      | Except.ok none =>
          match extractLoop text rest with
          | (w, miss, ab) => (w, (if req then [tgt] else []) ++ miss, ab)
      | Except.ok (some block) =>
          match extractLoop text rest with
          | (w, miss, ab) => ((outName, block) :: w, miss, ab)

/-- `main` of `extract_xui_payload.py` (lines 41-85): exit 2 when the source
file does not exist; otherwise run the loop, exit 3 when a required target
had no heredoc, else write the manifest (count = number extracted) and
exit 0. -/
def extract_payload_main (srcExists : Bool) (text : List Char) : PayloadResult :=
  if srcExists = false then ⟨some 2, [], none⟩
  else
    match extractLoop text TARGETS with
    | (w, miss, ab) =>
        if ab then ⟨none, w, none⟩
        else if miss ≠ [] then ⟨some 3, w, none⟩
        else ⟨some 0, w, some w.length⟩

/-- The files `main` writes, stated declaratively per target. -/
def writtenSpec (text : List Char) (ts : List (List Char × String × Bool)) :
    List (String × List Char) :=
  ts.filterMap (fun t =>
    match extract_last_heredoc text t.1 with
    | Except.ok (some b) => some (t.2.1, b)
    | _ => none)

/-- The required targets whose heredoc is missing, stated declaratively. -/
def missingSpec (text : List Char) (ts : List (List Char × String × Bool)) :
    List (List Char) :=
  ts.filterMap (fun t =>
    match extract_last_heredoc text t.1 with
    | Except.ok none => if t.2.2 then some t.1 else none
    | _ => none)

/-- Bad installer text: the first (required) target's heredoc is never
closed, while the second target's heredoc is complete. -/
def cexBadTextC5 : List Char :=
  openingFull "$DASH_DIR/pyqt_dashboard_improved.py".toList "AAA".toList ++
  "unterminated".toList ++ [newlineChar] ++
  openingFull "$BIN_DIR/xui_webhub.py".toList "BBB".toList ++
  "print(1)".toList ++ [newlineChar] ++ "BBB".toList ++ [newlineChar]

/-! ## Dedent step of `src/xui/extract_dashboard.py` (lines 22-36) and
`src/xui/fix_heredoc_dedent.py` (lines 19-34), plus the `textwrap.dedent`
pre-pass the latter applies. -/

/-- Length of the leading-whitespace run of a line
(`len(re.match(r"^(\s*)", ln).group(1))`). -/
def leadWS (ln : List Char) : Nat := (ln.takeWhile isPySpace).length

/-- A line with no non-whitespace character (`not ln.strip()`). -/
def isBlankLine (ln : List Char) : Bool := ln.all isPySpace

/-- `min(indents)` when the list is non-empty, `0` otherwise. -/
def minList : List Nat → Nat
  | [] => 0
  | x :: xs => xs.foldl Nat.min x

/-- `min_indent` of both dedent scripts: the minimum leading-whitespace
length over the non-blank lines, or 0 when there is none. -/
def minIndent (lines : List (List Char)) : Nat :=
  minList ((lines.filter (fun ln => !(isBlankLine ln))).map leadWS)

/-- The shared dedent step of `src/xui/extract_dashboard.py` (lines 26-31)
and `src/xui/fix_heredoc_dedent.py` (lines 24-30):
`[ln[min_indent:] if len(ln) >= min_indent else '' for ln in lines]` when
`min_indent > 0`, the lines unchanged otherwise. -/
def dedentLines (lines : List (List Char)) : List (List Char) :=
  if 0 < minIndent lines then
    lines.map (fun ln =>
      if minIndent lines ≤ ln.length then ln.drop (minIndent lines) else [])
  else lines

/-- The final `if dedented.startswith('\n'): dedented.lstrip('\n')` of
`extract_dashboard.py` (lines 33-34). -/
def lstripNewlines (t : List Char) : List Char :=
  if t.head? = some newlineChar then t.dropWhile (fun c => c = newlineChar) else t

/-- `[ \t]`, the whitespace `textwrap.dedent` considers. -/
def isIndentChar (c : Char) : Bool := c = ' ' || c = Char.ofNat 9

/-- A line matched by textwrap's `_whitespace_only_re` (`^[ \t]+$`). -/
def wsOnlyLine (ln : List Char) : Bool := decide (ln ≠ []) && ln.all isIndentChar

/-- Longest common prefix of two lines. -/
def lcp : List Char → List Char → List Char
  | a :: as, b :: bs => if a = b then a :: lcp as bs else []
  | _, _ => []

/-- textwrap's `margin`: the longest common `[ \t]`-prefix of the lines with
non-whitespace content. -/
def marginOf (lines : List (List Char)) : List Char :=
  match (lines.filter (fun ln => !(ln.all isIndentChar))).map
      (fun ln => ln.takeWhile isIndentChar) with
  | [] => []
  | i :: is => is.foldl lcp i

/-- `textwrap.dedent` (fix_heredoc_dedent.py line 19): whitespace-only lines
are emptied, and the common margin is removed from every line that starts
with it. -/
def pyDedent (lines : List (List Char)) : List (List Char) :=
  lines.map (fun ln =>
    if wsOnlyLine ln then []
    else if (dropPre (marginOf lines) ln).isSome then ln.drop (marginOf lines).length
    else ln)

/-! ## Helper lemmas -/

theorem dropPre_eq_some {p t r : List Char} :
    dropPre p t = some r ↔ t = p ++ r := by
  induction p generalizing t with
  | nil => simp [dropPre]
  | cons x ps ih =>
      cases t with
      | nil => simp [dropPre]
      | cons c cs =>
          by_cases h : x = c
          · subst h
            simp [dropPre, ih]
          · simp only [dropPre, if_neg h, List.cons_append]
            constructor
            · intro hc
              exact absurd hc (by simp)
            · intro hc
              exact absurd (List.head_eq_of_cons_eq hc).symm h

theorem dropPre_append (p r : List Char) : dropPre p (p ++ r) = some r :=
  dropPre_eq_some.mpr rfl

theorem dropPre_isSome_iff {p t : List Char} :
    (dropPre p t).isSome = true ↔ p <+: t := by
  cases h : dropPre p t with
  | none =>
      simp only [Option.isSome_none, Bool.false_eq_true, false_iff]
      intro hp
      obtain ⟨r, hr⟩ := hp
      rw [dropPre_eq_some.mpr hr.symm] at h
      exact Option.noConfusion h
  | some r =>
      simp only [Option.isSome_some, true_iff]
      exact ⟨r, (dropPre_eq_some.mp h).symm⟩

theorem takeWhile_of_append {p : Char → Bool} {l : List Char} {b : Char}
    (r : List Char) (hl : ∀ a ∈ l, p a = true) (hb : p b = false) :
    (l ++ b :: r).takeWhile p = l := by
  induction l with
  | nil => simp [List.takeWhile_cons, hb]
  | cons x xs ih =>
      have hx := hl x (by simp)
      simp [List.takeWhile_cons, hx, ih (fun a ha => hl a (by simp [ha]))]

theorem takeWhile_append_drop (p : Char → Bool) (l : List Char) :
    l.takeWhile p ++ l.drop (l.takeWhile p).length = l := by
  induction l with
  | nil => rfl
  | cons x xs ih =>
      by_cases h : p x
      · simp [List.takeWhile_cons, h, ih]
      · simp [List.takeWhile_cons, h]

theorem drop_append_len (a b : List Char) (n : Nat) :
    (a ++ b).drop (a.length + n) = b.drop n := by
  induction a with
  | nil => simp
  | cons x xs ih => simp [Nat.succ_add, ih]

theorem drop_append_self (a b : List Char) : (a ++ b).drop a.length = b := by
  have h := drop_append_len a b 0
  simp only [Nat.add_zero, List.drop_zero] at h
  exact h

theorem matchOpening_some_iff {target t mk tail : List Char} :
    matchOpening target t = some (mk, tail) ↔
      (mk ≠ [] ∧ quoteChar ∉ mk ∧ t = openingFull target mk ++ tail) := by
  constructor
  · intro h
    unfold matchOpening at h
    cases hd : dropPre (openingHead target) t with
    | none => rw [hd] at h; exact absurd h (by simp)
    | some rest =>
        rw [hd] at h
        dsimp only at h
        cases hdrop : rest.drop ((rest.takeWhile (fun c => c != quoteChar)).length) with
        | nil => rw [hdrop] at h; exact absurd h (by simp)
        | cons c1 rest2 =>
            cases rest2 with
            | nil => rw [hdrop] at h; exact absurd h (by simp)
            | cons c2 tail0 =>
                rw [hdrop] at h
                dsimp only at h
                by_cases hcond : rest.takeWhile (fun c => c != quoteChar) ≠ [] ∧
                    c1 = quoteChar ∧ c2 = newlineChar
                · rw [if_pos hcond] at h
                  have hinj := Option.some.inj h
                  have hmk : rest.takeWhile (fun c => c != quoteChar) = mk :=
                    congrArg Prod.fst hinj
                  have htl : tail0 = tail := congrArg Prod.snd hinj
                  refine ⟨hmk ▸ hcond.1, ?_, ?_⟩
                  · intro hq
                    rw [← hmk] at hq
                    have hmem := List.mem_takeWhile_imp hq
                    simp at hmem
                  · have ht : t = openingHead target ++ rest := dropPre_eq_some.mp hd
                    have hrest : rest =
                        rest.takeWhile (fun c => c != quoteChar) ++ (c1 :: c2 :: tail0) := by
                      conv_lhs => rw [← takeWhile_append_drop (fun c => c != quoteChar) rest]
                      rw [hdrop]
                    rw [ht]
                    conv_lhs => rw [hrest]
                    rw [hcond.2.1, hcond.2.2, hmk, htl]
                    simp [openingFull, List.append_assoc]
                · rw [if_neg hcond] at h
                  exact absurd h (by simp)
  · rintro ⟨hne, hnq, rfl⟩
    have htw : (mk ++ quoteChar :: newlineChar :: tail).takeWhile
        (fun c => c != quoteChar) = mk := by
      refine takeWhile_of_append _ (fun a ha => ?_) (by simp)
      simp only [bne_iff_ne, ne_eq, decide_eq_true_eq]
      exact fun heq => hnq (heq ▸ ha)
    have hsplit : openingFull target mk ++ tail =
        openingHead target ++ (mk ++ quoteChar :: newlineChar :: tail) := by
      simp [openingFull, List.append_assoc]
    rw [hsplit]
    unfold matchOpening
    rw [dropPre_append]
    dsimp only
    rw [htw, drop_append_self]
    dsimp only
    simp [hne]

theorem matchOpening_nil (target : List Char) : matchOpening target [] = none := rfl

theorem matchOpening_tail_lt {target t mk tail : List Char}
    (h : matchOpening target t = some (mk, tail)) : tail.length < t.length := by
  obtain ⟨hne, hq, rfl⟩ := matchOpening_some_iff.mp h
  simp [openingFull, openingHead]
  omega

theorem scanLastAux_none_iff (target : List Char) :
    ∀ (n : Nat) (t : List Char), t.length ≤ n →
      (scanLastAux target n t = none ↔
        ∀ i, matchOpening target (t.drop i) = none) := by
  intro n
  induction n with
  | zero =>
      intro t ht
      have hnil : t = [] := List.eq_nil_of_length_eq_zero (Nat.le_zero.mp ht)
      subst hnil
      simp [scanLastAux, matchOpening_nil]
  | succ n ih =>
      intro t ht
      cases t with
      | nil => simp [scanLastAux, matchOpening_nil]
      | cons c rest =>
          cases hm : matchOpening target (c :: rest) with
          | some pr =>
              have hLHS : scanLastAux target (n + 1) (c :: rest) ≠ none := by
                simp only [scanLastAux, hm]
                cases h2 : scanLastAux target n pr.2 <;> simp
              constructor
              · intro hs
                exact absurd hs hLHS
              · intro hall
                have h0 := hall 0
                simp only [List.drop_zero] at h0
                rw [hm] at h0
                exact Option.noConfusion h0
          | none =>
              have heq : scanLastAux target (n + 1) (c :: rest) =
                  scanLastAux target n rest := by
                simp only [scanLastAux, hm]
              have hlen : rest.length ≤ n := by
                simp only [List.length_cons] at ht
                omega
              rw [heq, ih rest hlen]
              constructor
              · intro hall i
                cases i with
                | zero => simpa using hm
                | succ j =>
                    have := hall j
                    simpa using this
              · intro hall i
                have := hall (i + 1)
                simpa using this

theorem scanLastAux_some (target : List Char) :
    ∀ (n : Nat) (t mk tail : List Char), t.length ≤ n →
      scanLastAux target n t = some (mk, tail) →
      mk ≠ [] ∧ quoteChar ∉ mk ∧
      (∃ i, t.drop i = openingFull target mk ++ tail) ∧
      (∀ j, matchOpening target (tail.drop j) = none) := by
  intro n
  induction n with
  | zero =>
      intro t mk tail ht hs
      have hnil : t = [] := List.eq_nil_of_length_eq_zero (Nat.le_zero.mp ht)
      subst hnil
      simp [scanLastAux] at hs
  | succ n ih =>
      intro t mk tail ht hs
      cases t with
      | nil => simp [scanLastAux] at hs
      | cons c rest =>
          cases hm : matchOpening target (c :: rest) with
          | none =>
              have heq : scanLastAux target (n + 1) (c :: rest) =
                  scanLastAux target n rest := by
                simp only [scanLastAux, hm]
              rw [heq] at hs
              have hlen : rest.length ≤ n := by
                simp only [List.length_cons] at ht
                omega
              obtain ⟨h1, h2, ⟨i, hi⟩, h4⟩ := ih rest mk tail hlen hs
              refine ⟨h1, h2, ⟨i + 1, ?_⟩, h4⟩
              simpa using hi
          | some pr =>
              obtain ⟨mk0, tail0⟩ := pr
              have hlt : tail0.length < (c :: rest).length := matchOpening_tail_lt hm
              have hlen0 : tail0.length ≤ n := by
                simp only [List.length_cons] at hlt ht
                omega
              simp only [scanLastAux, hm] at hs
              cases h2 : scanLastAux target n tail0 with
              | some r =>
                  rw [h2] at hs
                  simp only [Option.some.injEq] at hs
                  subst hs
                  obtain ⟨g1, g2, ⟨i, hi⟩, g4⟩ := ih tail0 mk tail hlen0 h2
                  obtain ⟨hne0, hq0, hdecomp⟩ := matchOpening_some_iff.mp hm
                  refine ⟨g1, g2, ⟨(openingFull target mk0).length + i, ?_⟩, g4⟩
                  rw [hdecomp, drop_append_len]
                  exact hi
              | none =>
                  rw [h2] at hs
                  simp only [Option.some.injEq, Prod.mk.injEq] at hs
                  obtain ⟨rfl, rfl⟩ := hs
                  obtain ⟨hne0, hq0, hdecomp⟩ := matchOpening_some_iff.mp hm
                  refine ⟨hne0, hq0, ⟨0, by simpa using hdecomp⟩, ?_⟩
                  intro j
                  exact ((scanLastAux_none_iff target n tail0 hlen0).mp h2) j

theorem findSub_none_iff {token : List Char} :
    ∀ t : List Char, (findSub token t = none ↔ ∀ j, ¬ token <+: t.drop j) := by
  intro t
  induction t with
  | nil =>
      by_cases h : (dropPre token ([] : List Char)).isSome
      · simp only [findSub, h, if_true]
        constructor
        · intro hc
          exact absurd hc (by simp)
        · intro hall
          exact absurd (dropPre_isSome_iff.mp h) (by simpa using hall 0)
      · simp only [findSub, h, if_false]
        constructor
        · intro _ j hp
          rw [List.drop_nil] at hp
          exact h (dropPre_isSome_iff.mpr hp)
        · intro _
          rfl
  | cons c rest ih =>
      by_cases h : (dropPre token (c :: rest)).isSome
      · simp only [findSub, h, if_true]
        constructor
        · intro hc
          exact absurd hc (by simp)
        · intro hall
          exact absurd (dropPre_isSome_iff.mp h) (by simpa using hall 0)
      · simp only [findSub, h, if_false]
        constructor
        · intro hc j hp
          cases j with
          | zero =>
              rw [List.drop_zero] at hp
              exact h (dropPre_isSome_iff.mpr hp)
          | succ i =>
              have hrest : findSub token rest = none := by
                cases hr : findSub token rest with
                | none => rfl
                | some k => rw [hr] at hc; exact absurd hc (by simp)
              have := (ih.mp hrest) i
              simp only [List.drop_succ_cons] at hp
              exact this hp
        · intro hall
          have hrest : findSub token rest = none := by
            rw [ih]
            intro j hp
            have := hall (j + 1)
            simp only [List.drop_succ_cons] at this
            exact this hp
          rw [hrest]
          rfl

theorem findSub_some {token : List Char} :
    ∀ (t : List Char) (idx : Nat), findSub token t = some idx →
      (token <+: t.drop idx) ∧ ∀ j, j < idx → ¬ token <+: t.drop j := by
  intro t
  induction t with
  | nil =>
      intro idx h
      by_cases hp : (dropPre token ([] : List Char)).isSome
      · simp only [findSub, hp, if_true, Option.some.injEq] at h
        subst h
        exact ⟨by simpa using dropPre_isSome_iff.mp hp, fun j hj => by omega⟩
      · simp only [findSub, hp, if_false] at h
        exact Option.noConfusion h
  | cons c rest ih =>
      intro idx h
      by_cases hp : (dropPre token (c :: rest)).isSome
      · simp only [findSub, hp, if_true, Option.some.injEq] at h
        subst h
        exact ⟨by simpa using dropPre_isSome_iff.mp hp, fun j hj => by omega⟩
      · simp only [findSub, hp, Bool.false_eq_true, if_false] at h
        cases hr : findSub token rest with
        | none => rw [hr] at h; exact absurd h (by simp)
        | some k =>
            rw [hr] at h
            simp only [Option.map_some', Option.some.injEq] at h
            subst h
            obtain ⟨h1, h2⟩ := ih k hr
            refine ⟨by simp only [List.drop_succ_cons]; exact h1, ?_⟩
            intro j hj
            cases j with
            | zero =>
                intro hpre
                rw [List.drop_zero] at hpre
                exact hp (dropPre_isSome_iff.mpr hpre)
            | succ i =>
                intro hpre
                simp only [List.drop_succ_cons] at hpre
                exact h2 i (by omega) hpre

theorem occursAt_iff_match {text target mk : List Char} {i : Nat} :
    OccursAt text target i mk ↔
      ∃ tail, matchOpening target (text.drop i) = some (mk, tail) := by
  constructor
  · rintro ⟨hne, hq, r, hr⟩
    exact ⟨r, matchOpening_some_iff.mpr ⟨hne, hq, hr.symm⟩⟩
  · rintro ⟨tail, h⟩
    obtain ⟨hne, hq, hdec⟩ := matchOpening_some_iff.mp h
    exact ⟨hne, hq, tail, hdec.symm⟩

theorem no_match_iff_no_occurs {text target : List Char} :
    (∀ i, matchOpening target (text.drop i) = none) ↔
      (∀ i mk, ¬ OccursAt text target i mk) := by
  constructor
  · intro h i mk hocc
    obtain ⟨tail, hm⟩ := occursAt_iff_match.mp hocc
    rw [h i] at hm
    exact Option.noConfusion hm
  · intro h i
    cases hm : matchOpening target (text.drop i) with
    | none => rfl
    | some pr =>
        obtain ⟨mk, tail⟩ := pr
        exact absurd (occursAt_iff_match.mpr ⟨tail, hm⟩) (h i mk)

theorem extractLoop_no_error (text : List Char) :
    ∀ ts : List (List Char × String × Bool),
      (∀ t ∈ ts, extract_last_heredoc text t.1 ≠ Except.error ()) →
      extractLoop text ts = (writtenSpec text ts, missingSpec text ts, false) := by
  intro ts
  induction ts with
  | nil => intro _; rfl
  | cons t rest ih =>
      intro hno
      obtain ⟨tgt, outName, req⟩ := t
      have hrest := ih (fun u hu => hno u (by simp [hu]))
      cases hx : extract_last_heredoc text tgt with
      | error e =>
          exact absurd (by simpa using hx) (by simpa using hno (tgt, outName, req) (by simp))
      | ok res =>
          cases res with
          | none =>
              simp only [extractLoop, hx, hrest, writtenSpec, missingSpec,
                List.filterMap_cons]
              cases req <;> simp [writtenSpec, missingSpec, hx]
          | some block =>
              simp only [extractLoop, hx, hrest, writtenSpec, missingSpec,
                List.filterMap_cons]

theorem foldl_min_le_init : ∀ (xs : List Nat) (a : Nat), xs.foldl Nat.min a ≤ a := by
  intro xs
  induction xs with
  | nil => intro a; exact Nat.le_refl a
  | cons x xs ih =>
      intro a
      exact Nat.le_trans (ih (Nat.min a x)) (Nat.min_le_left a x)

theorem foldl_min_le_mem : ∀ (xs : List Nat) (a x : Nat), x ∈ xs →
    xs.foldl Nat.min a ≤ x := by
  intro xs
  induction xs with
  | nil => intro a x hx; simp at hx
  | cons y ys ih =>
      intro a x hx
      rcases List.mem_cons.mp hx with h | h
      · subst h
        exact Nat.le_trans (foldl_min_le_init ys (Nat.min a x)) (Nat.min_le_right a x)
      · exact ih (Nat.min a y) x h

theorem minList_le {l : List Nat} {x : Nat} (hx : x ∈ l) : minList l ≤ x := by
  cases l with
  | nil => simp at hx
  | cons y ys =>
      rcases List.mem_cons.mp hx with h | h
      · subst h
        exact foldl_min_le_init ys x
      · exact foldl_min_le_mem ys y x h

theorem foldl_min_mem : ∀ (xs : List Nat) (a : Nat),
    xs.foldl Nat.min a = a ∨ xs.foldl Nat.min a ∈ xs := by
  intro xs
  induction xs with
  | nil => intro a; exact Or.inl rfl
  | cons x xs ih =>
      intro a
      simp only [List.foldl_cons]
      rcases ih (Nat.min a x) with h | h
      · rw [h]
        rcases Nat.le_total a x with hle | hle
        · exact Or.inl (Nat.min_eq_left hle)
        · exact Or.inr (by simp [Nat.min_eq_right hle])
      · exact Or.inr (List.mem_cons_of_mem x h)

theorem minList_mem {l : List Nat} (h : l ≠ []) : minList l ∈ l := by
  cases l with
  | nil => exact absurd rfl h
  | cons x xs =>
      rcases foldl_min_mem xs x with h2 | h2
      · rw [minList, h2]; exact List.mem_cons_self x xs
      · exact List.mem_cons_of_mem x h2

theorem leadWS_cons (c : Char) (rest : List Char) :
    leadWS (c :: rest) = if isPySpace c then leadWS rest + 1 else 0 := by
  by_cases h : isPySpace c <;> simp [leadWS, List.takeWhile_cons, h]

theorem leadWS_drop : ∀ (ln : List Char) (m : Nat), m ≤ leadWS ln →
    leadWS (ln.drop m) + m = leadWS ln := by
  intro ln
  induction ln with
  | nil => intro m hm; simp [leadWS] at hm; simp [hm, leadWS]
  | cons c rest ih =>
      intro m hm
      cases m with
      | zero => simp
      | succ k =>
          rw [leadWS_cons] at hm
          by_cases hc : isPySpace c
          · rw [if_pos hc] at hm
            have hk : k ≤ leadWS rest := by omega
            have := ih k hk
            rw [List.drop_succ_cons, leadWS_cons, if_pos hc]
            omega
          · rw [if_neg hc] at hm
            omega

theorem isBlank_drop : ∀ (ln : List Char) (m : Nat), m ≤ leadWS ln →
    isBlankLine (ln.drop m) = isBlankLine ln := by
  intro ln
  induction ln with
  | nil => intro m hm; simp [leadWS] at hm; simp [hm]
  | cons c rest ih =>
      intro m hm
      cases m with
      | zero => simp
      | succ k =>
          rw [leadWS_cons] at hm
          by_cases hc : isPySpace c
          · rw [if_pos hc] at hm
            have hk : k ≤ leadWS rest := by omega
            rw [List.drop_succ_cons, ih k hk]
            simp [isBlankLine, hc]
          · rw [if_neg hc] at hm
            omega

theorem drop_suffix_of (l : List Char) (n : Nat) : l.drop n <:+ l :=
  ⟨l.take n, List.take_append_drop n l⟩

theorem getD_map_of_lt (f : List Char → List Char) (l : List (List Char))
    (i : Nat) (h : i < l.length) :
    (l.map f).getD i [] = f (l.getD i []) := by
  rw [List.getD_eq_getElem?_getD, List.getD_eq_getElem?_getD,
    List.getElem?_map, List.getElem?_eq_getElem h]
  rfl

theorem getD_mem_of_lt (l : List (List Char)) (i : Nat) (h : i < l.length) :
    l.getD i [] ∈ l := by
  rw [List.getD_eq_getElem?_getD, List.getElem?_eq_getElem h]
  exact List.getElem_mem h

theorem minIndent_le {lines : List (List Char)} {ln : List Char}
    (hmem : ln ∈ lines) (hnb : isBlankLine ln = false) :
    minIndent lines ≤ leadWS ln := by
  apply minList_le
  exact List.mem_map_of_mem leadWS (List.mem_filter.mpr ⟨hmem, by simp [hnb]⟩)

theorem minIndent_attained {lines : List (List Char)}
    (h : ∃ ln ∈ lines, isBlankLine ln = false) :
    ∃ ln ∈ lines, isBlankLine ln = false ∧ leadWS ln = minIndent lines := by
  obtain ⟨ln0, hmem0, hnb0⟩ := h
  have hne : (lines.filter (fun ln => !(isBlankLine ln))).map leadWS ≠ [] := by
    intro hnil
    have : ln0 ∈ lines.filter (fun ln => !(isBlankLine ln)) :=
      List.mem_filter.mpr ⟨hmem0, by simp [hnb0]⟩
    rw [List.map_eq_nil_iff.mp hnil] at this
    simp at this
  have hmin := minList_mem hne
  rw [List.mem_map] at hmin
  obtain ⟨ln, hln, hws⟩ := hmin
  obtain ⟨hmem, hnb⟩ := List.mem_filter.mp hln
  exact ⟨ln, hmem, by simpa using hnb, hws⟩

theorem dedentLines_getD (lines : List (List Char)) (i : Nat)
    (h : i < lines.length) :
    (dedentLines lines).getD i [] = (lines.getD i []).drop (minIndent lines) := by
  unfold dedentLines
  by_cases hm : 0 < minIndent lines
  · rw [if_pos hm, getD_map_of_lt _ _ _ h]
    by_cases hlen : minIndent lines ≤ (lines.getD i []).length
    · rw [if_pos hlen]
    · rw [if_neg hlen]
      rw [List.drop_eq_nil_iff.mpr (by omega)]
  · rw [if_neg hm]
    have : minIndent lines = 0 := by omega
    rw [this, List.drop_zero]

theorem dedentLines_length (lines : List (List Char)) :
    (dedentLines lines).length = lines.length := by
  unfold dedentLines
  split_ifs <;> simp

theorem lcp_prefix_left : ∀ (a b : List Char), lcp a b <+: a := by
  intro a
  induction a with
  | nil => intro b; cases b <;> simp [lcp]
  | cons x xs ih =>
      intro b
      cases b with
      | nil => simp [lcp]
      | cons y ys =>
          by_cases h : x = y
          · simpa [lcp, h] using ih ys
          · simp [lcp, h]

theorem lcp_prefix_right : ∀ (a b : List Char), lcp a b <+: b := by
  intro a
  induction a with
  | nil => intro b; cases b <;> simp [lcp]
  | cons x xs ih =>
      intro b
      cases b with
      | nil => simp [lcp]
      | cons y ys =>
          by_cases h : x = y
          · subst h
            simpa [lcp] using ih ys
          · simp [lcp, h]

theorem foldl_lcp_prefix_init : ∀ (is : List (List Char)) (i : List Char),
    is.foldl lcp i <+: i := by
  intro is
  induction is with
  | nil => intro i; exact List.prefix_refl i
  | cons y ys ih =>
      intro i
      simp only [List.foldl_cons]
      exact (ih (lcp i y)).trans (lcp_prefix_left i y)

theorem foldl_lcp_prefix : ∀ (is : List (List Char)) (i x : List Char),
    x ∈ is → is.foldl lcp i <+: x := by
  intro is
  induction is with
  | nil => intro i x hx; simp at hx
  | cons y ys ih =>
      intro i x hx
      simp only [List.foldl_cons]
      rcases List.mem_cons.mp hx with h | h
      · subst h
        exact (foldl_lcp_prefix_init ys (lcp i x)).trans (lcp_prefix_right i x)
      · exact ih (lcp i y) x h

theorem takeWhile_prefix_of (p : Char → Bool) (l : List Char) :
    l.takeWhile p <+: l :=
  ⟨l.drop (l.takeWhile p).length, takeWhile_append_drop p l⟩

theorem takeWhile_prefix_mono {p q : Char → Bool}
    (himp : ∀ c, p c = true → q c = true) :
    ∀ l : List Char, l.takeWhile p <+: l.takeWhile q := by
  intro l
  induction l with
  | nil => simp
  | cons x xs ih =>
      by_cases h : p x
      · rw [List.takeWhile_cons, if_pos h, List.takeWhile_cons, if_pos (himp x h)]
        exact (List.prefix_cons_inj x).mpr ih
      · rw [List.takeWhile_cons, if_neg h]
        exact List.nil_prefix

theorem indentChar_isPySpace {c : Char} (h : isIndentChar c = true) :
    isPySpace c = true := by
  simp only [isIndentChar, Bool.or_eq_true] at h
  rcases h with h | h <;> simp [isPySpace, h]

theorem indent_len_le_leadWS (ln : List Char) :
    (ln.takeWhile isIndentChar).length ≤ leadWS ln :=
  (takeWhile_prefix_mono (fun _ => indentChar_isPySpace) ln).length_le

theorem not_all_indent_of_not_blank {ln : List Char}
    (h : isBlankLine ln = false) : ln.all isIndentChar = false := by
  by_contra hc
  have hall : ln.all isIndentChar = true := by
    cases hx : ln.all isIndentChar with
    | true => rfl
    | false => exact absurd hx hc
  have : isBlankLine ln = true := by
    rw [isBlankLine, List.all_eq_true]
    intro c hcmem
    exact indentChar_isPySpace (List.all_eq_true.mp hall c hcmem)
  rw [this] at h
  exact Bool.noConfusion h

theorem margin_prefix_of_content {lines : List (List Char)} {ln : List Char}
    (hmem : ln ∈ lines) (hcontent : ln.all isIndentChar = false) :
    marginOf lines <+: ln.takeWhile isIndentChar := by
  have hmm : ln.takeWhile isIndentChar ∈
      (lines.filter (fun l2 => !(l2.all isIndentChar))).map
        (fun l2 => l2.takeWhile isIndentChar) :=
    List.mem_map_of_mem _ (List.mem_filter.mpr ⟨hmem, by simp [hcontent]⟩)
  cases hmap : (lines.filter (fun l2 => !(l2.all isIndentChar))).map
      (fun l2 => l2.takeWhile isIndentChar) with
  | nil => rw [hmap] at hmm; simp at hmm
  | cons i is =>
      have hmargin : marginOf lines = is.foldl lcp i := by
        simp only [marginOf, hmap]
      rw [hmap] at hmm
      rw [hmargin]
      rcases List.mem_cons.mp hmm with h | h
      · rw [← h] at *
        exact foldl_lcp_prefix_init is _
      · exact foldl_lcp_prefix is i _ h

theorem margin_facts {lines : List (List Char)} {ln : List Char}
    (hmem : ln ∈ lines) (hnb : isBlankLine ln = false) :
    marginOf lines <+: ln ∧ (marginOf lines).length ≤ leadWS ln := by
  have hcontent := not_all_indent_of_not_blank hnb
  have h1 := margin_prefix_of_content hmem hcontent
  constructor
  · exact h1.trans (takeWhile_prefix_of isIndentChar ln)
  · exact Nat.le_trans h1.length_le (indent_len_le_leadWS ln)

theorem wsOnly_false_of_not_blank {ln : List Char}
    (hnb : isBlankLine ln = false) : wsOnlyLine ln = false := by
  rw [wsOnlyLine]
  cases hall : ln.all isIndentChar with
  | false => simp
  | true => exact absurd hall (by rw [not_all_indent_of_not_blank hnb]; simp)

theorem dropPre_isSome_of_leading {p t : List Char} (h : p <+: t) :
    (dropPre p t).isSome = true := by
  obtain ⟨r, hr⟩ := h
  subst hr
  induction p with
  | nil => rfl
  | cons x xs ih => simpa [dropPre] using ih

theorem pyDedent_getD_nonblank {lines : List (List Char)} {i : Nat}
    (h : i < lines.length) (hnb : isBlankLine (lines.getD i []) = false) :
    (pyDedent lines).getD i [] = (lines.getD i []).drop (marginOf lines).length := by
  have hmem := getD_mem_of_lt lines i h
  obtain ⟨hpre, _⟩ := margin_facts hmem hnb
  rw [pyDedent, getD_map_of_lt _ _ _ h, if_neg (by rw [wsOnly_false_of_not_blank hnb]; simp),
    if_pos (dropPre_isSome_of_leading hpre)]

theorem pyDedent_length (lines : List (List Char)) :
    (pyDedent lines).length = lines.length := by
  simp [pyDedent]

theorem pyDedent_getD_suffix {lines : List (List Char)} {i : Nat}
    (h : i < lines.length) :
    (pyDedent lines).getD i [] <:+ lines.getD i [] := by
  rw [pyDedent, getD_map_of_lt _ _ _ h]
  split_ifs with h1 h2
  · exact List.nil_suffix
  · exact drop_suffix_of _ _
  · exact List.suffix_refl _

theorem dropWhile_eq_drop_takeWhile (p : Char → Bool) (l : List Char) :
    l.dropWhile p = l.drop (l.takeWhile p).length := by
  induction l with
  | nil => rfl
  | cons x xs ih =>
      by_cases h : p x
      · simp [List.dropWhile_cons, List.takeWhile_cons, h, ih]
      · simp [List.dropWhile_cons, List.takeWhile_cons, h]

theorem take_takeWhile_len (p : Char → Bool) (l : List Char) :
    l.take (l.takeWhile p).length = l.takeWhile p := by
  induction l with
  | nil => rfl
  | cons x xs ih =>
      by_cases h : p x
      · simp [List.takeWhile_cons, h, ih]
      · simp [List.takeWhile_cons, h]

theorem lstripNewlines_spec (t : List Char) :
    lstripNewlines t <:+ t ∧
      ∃ k, lstripNewlines t = t.drop k ∧ ∀ c ∈ t.take k, c = newlineChar := by
  unfold lstripNewlines
  split_ifs with h
  · rw [dropWhile_eq_drop_takeWhile]
    refine ⟨drop_suffix_of _ _, (t.takeWhile (fun c => c = newlineChar)).length,
      rfl, ?_⟩
    intro c hc
    rw [take_takeWhile_len] at hc
    have := List.mem_takeWhile_imp hc
    simpa using this
  · exact ⟨List.suffix_refl t, 0, by simp, by simp⟩

/-! ## Claim theorems -/

/-! ### Claims C1, C7, C8 -/

/-- C1: in status mode, when the GitHub request for the target branch succeeds
with a non-empty (stripped) sha, `compute_status` requires an update exactly
when the local commit is empty (reason `missing-local-version`) or differs
from the remote sha (reason `outdated`); when they agree the reason is
`up-to-date` and no update is required; and the returned process exit code is
10 exactly when an update is required, 0 otherwise. -/
theorem compute_status_remote_ok_spec (localCommit branch : String) (c : GhCommit)
    (h : pyStrip c.sha ≠ "") :
    ((compute_status localCommit (remote_meta branch (Except.ok c))).required = true ↔
        (localCommit = "" ∨ localCommit ≠ pyStrip c.sha)) ∧
    (localCommit = "" →
      (compute_status localCommit (remote_meta branch (Except.ok c))).reason =
        "missing-local-version") ∧
    (localCommit ≠ "" → localCommit ≠ pyStrip c.sha →
      (compute_status localCommit (remote_meta branch (Except.ok c))).reason = "outdated") ∧
    (localCommit ≠ "" → localCommit = pyStrip c.sha →
      (compute_status localCommit (remote_meta branch (Except.ok c))).required = false ∧
      (compute_status localCommit (remote_meta branch (Except.ok c))).reason = "up-to-date") ∧
    (status_exit (compute_status localCommit (remote_meta branch (Except.ok c))).required =
      if (compute_status localCommit (remote_meta branch (Except.ok c))).required then 10
      else 0) := by
  unfold remote_meta compute_status status_exit
  simp only [h, if_neg h]
  by_cases hl : localCommit = ""
  · simp [hl, h, Ne.symm h]
  · by_cases hs : localCommit = pyStrip c.sha
    · simp [hl, hs, h]
    · simp [hl, hs]

/-- Witness for C1 at a concrete up-to-date input. -/
theorem compute_status_remote_ok_spec_witness :
    (compute_status "abc" (remote_meta "windows" (Except.ok ⟨"abc", "d", "u"⟩))).required
      = false ∧
    (compute_status "abc" (remote_meta "windows" (Except.ok ⟨"abc", "d", "u"⟩))).reason
      = "up-to-date" :=
  (compute_status_remote_ok_spec "abc" "windows" ⟨"abc", "d", "u"⟩
      (by decide)).2.2.2.1 (by decide) (by decide)

/-- C7 counterexample: with a missing state file (so `read_state_commit`
yields `""`) but a git checkout present, the hash compared against the remote
sha is `git rev-parse HEAD`, not the (empty) `installed_commit` field. -/
theorem local_commit_source_counterexample :
    (compute_status_full (read_state_commit none) (some "deadbeef")
        (remote_meta "windows" (Except.ok ⟨"feedface", "", ""⟩))).local_commit
      ≠ read_state_commit none := by
  decide

/-- C7 (amended): the status check compares the `installed_commit` field of
`update_state.json` whenever that field is non-empty; only when it is empty
does it fall back to `git rev-parse HEAD` of the source checkout (and to the
empty string when that is unavailable). -/
theorem local_commit_source_spec (stateCommit : String) (gitHead : Option String)
    (meta : RMeta) :
    (stateCommit ≠ "" →
      (compute_status_full stateCommit gitHead meta).local_commit = stateCommit) ∧
    ((compute_status_full "" gitHead meta).local_commit =
      match gitHead with
      | some h => h
      | none => "") := by
  constructor
  · intro hne
    unfold compute_status_full resolve_local_commit
    rw [if_neg hne]
    cases meta with
    | err e b => simp [compute_status]
    | ok b sha date url =>
        unfold compute_status
        by_cases h1 : stateCommit = ""
        · exact absurd h1 hne
        · by_cases h2 : stateCommit ≠ sha <;> simp [h1, h2]
  · unfold compute_status_full resolve_local_commit
    rw [if_pos rfl]
    cases gitHead with
    | none =>
        cases meta with
        | err e b => simp [compute_status]
        | ok b sha date url =>
            unfold compute_status
            by_cases h2 : ("" : String) ≠ sha <;> simp [h2]
    | some h =>
        cases meta with
        | err e b => simp [compute_status]
        | ok b sha date url =>
            unfold compute_status
            by_cases h1 : h = "" <;> by_cases h2 : h = sha <;>
              (simp [h1, h2]; try (split <;> rfl))

/-- Witness for C7's amended statement. -/
theorem local_commit_source_spec_witness :
    (compute_status_full "abc" (some "deadbeef")
        (remote_meta "windows" (Except.error "timeout"))).local_commit = "abc" :=
  (local_commit_source_spec "abc" (some "deadbeef")
      (remote_meta "windows" (Except.error "timeout"))).1 (by decide)

/-- C8: whenever the metadata fetch fails (exception, or an empty stripped
sha, which `remote_meta` converts into the `missing-remote-sha` failure),
`compute_status` reports `checked = false`, `update_required = false` and
exits with code 0; and the JSON object printed by `emit_json` has its
`mandatory` field equal to the constant `true` for every input. -/
theorem compute_status_remote_fail_spec (localCommit e b : String) (c : GhCommit)
    (checked required : Bool)
    (reason repo branch localC remoteC remoteD remoteU : String) :
    ((compute_status localCommit (RMeta.err e b)).checked = false ∧
     (compute_status localCommit (RMeta.err e b)).required = false ∧
     status_exit (compute_status localCommit (RMeta.err e b)).required = 0) ∧
    (remote_meta b (Except.error e) = RMeta.err e b) ∧
    (pyStrip c.sha = "" →
      remote_meta b (Except.ok c) = RMeta.err "missing-remote-sha" b) ∧
    (emit_json checked required reason repo branch localC remoteC remoteD
        remoteU).mandatory = true := by
  refine ⟨⟨rfl, rfl, rfl⟩, rfl, ?_, rfl⟩
  intro hsha
  unfold remote_meta
  simp [hsha]

/-- Witness for C8 at a concrete failed fetch and an empty-sha fetch. -/
theorem compute_status_remote_fail_spec_witness :
    remote_meta "windows" (Except.ok (⟨"  ", "d", "u"⟩ : GhCommit)) =
      RMeta.err "missing-remote-sha" "windows" :=
  (compute_status_remote_fail_spec "" "boom" "windows" ⟨"  ", "d", "u"⟩
      true true "" "" "" "" "" "" "").2.2.1 (by decide)

/-! ### Claims C4, C10 -/

/-- C4: both dashboard variants compute the same payout for every reel
outcome: 200 for three sevens, 50 for three of any other equal symbol, 20
when exactly two of the three reels match, 0 otherwise; hence the credit
updates coincide as functions of the reel values. -/
theorem slot_resolve_equiv_spec (credits : Int) (a b c : String) :
    (slot_resolve_fixed a b c = slot_resolve_win a b c) ∧
    (slot_credits_after_fixed credits a b c = slot_credits_after_win credits a b c) ∧
    (a = "7" → b = "7" → c = "7" → slot_resolve_fixed a b c = 200) ∧
    (a = b → b = c → a ≠ "7" → slot_resolve_fixed a b c = 50) ∧
    (a = b → a ≠ c → slot_resolve_fixed a b c = 20) ∧
    (b = c → a ≠ b → slot_resolve_fixed a b c = 20) ∧
    (a = c → a ≠ b → slot_resolve_fixed a b c = 20) ∧
    (a ≠ b → b ≠ c → a ≠ c → slot_resolve_fixed a b c = 0) := by
  refine ⟨rfl, rfl, ?_, ?_, ?_, ?_, ?_, ?_⟩
  · intro h1 h2 h3
    simp [slot_resolve_fixed, h1, h2, h3]
  · intro h1 h2 h3
    subst h1; subst h2
    simp [slot_resolve_fixed, h3]
  · intro h1 h2
    subst h1
    simp [slot_resolve_fixed, h2]
  · intro h1 h2
    subst h1
    simp [slot_resolve_fixed, h2, Ne.symm h2]
  · intro h1 h2
    subst h1
    simp [slot_resolve_fixed, h2, Ne.symm h2]
  · intro h1 h2 h3
    simp [slot_resolve_fixed, h1, h2, h3]

/-- Witness for C4: two cherries and a seven pay 20 in both variants. -/
theorem slot_resolve_equiv_spec_witness :
    slot_resolve_fixed "C" "C" "7" = 20 ∧
    slot_resolve_fixed "C" "C" "7" = slot_resolve_win "C" "C" "7" :=
  ⟨(slot_resolve_equiv_spec 0 "C" "C" "7").2.2.2.2.1 rfl (by decide),
   (slot_resolve_equiv_spec 0 "C" "C" "7").1⟩

/-- C10: in both variants `spin` with fewer than 10 credits leaves the
balance unchanged and starts no reel timers, and with at least 10 credits
deducts exactly 10 and starts them. -/
theorem slot_spin_spec (credits : Int) :
    (spin_fixed credits = spin_win credits) ∧
    (credits < 10 →
      spin_fixed credits = (credits, false) ∧ spin_win credits = (credits, false)) ∧
    (10 ≤ credits →
      spin_fixed credits = (credits - 10, true) ∧
      spin_win credits = (credits - 10, true)) := by
  refine ⟨rfl, ?_, ?_⟩
  · intro h
    constructor <;> simp [spin_fixed, spin_win, h]
  · intro h
    constructor <;> simp [spin_fixed, spin_win, not_lt.mpr h]

/-- Witness for C10 on both sides of the threshold. -/
theorem slot_spin_spec_witness :
    spin_fixed 9 = (9, false) ∧ spin_fixed 10 = (0, true) :=
  ⟨((slot_spin_spec 9).2.1 (by decide)).1,
   ((slot_spin_spec 10).2.2 (by decide)).1⟩

/-! ### Claim C6 -/

/-- C6: with a non-negative deadzone, a direction pressed past the deadzone
emits on the poll in which it becomes held (recording the emission time);
while it stays held, a poll strictly less than `repeat_rate` ms after the
last emission of that direction emits nothing and changes nothing, and a
poll at least `repeat_rate` ms after it emits again; a poll with the axis
back inside the deadzone clears the held flags without emitting, so a
subsequent press emits immediately. -/
theorem gamepad_repeat_spec (st : AxisPairState) (ax ax2 dz now now2 rate : ℚ)
    (hdz : 0 ≤ dz) :
    (ax < -dz → st.negDir.held = false →
      poll_axis st ax dz now rate = (⟨⟨true, now⟩, st.posDir⟩, true, false)) ∧
    (dz < ax → st.posDir.held = false →
      poll_axis st ax dz now rate = (⟨st.negDir, ⟨true, now⟩⟩, false, true)) ∧
    (ax < -dz → st.negDir.held = true → now - st.negDir.lastEmit < rate →
      poll_axis st ax dz now rate = (st, false, false)) ∧
    (dz < ax → st.posDir.held = true → now - st.posDir.lastEmit < rate →
      poll_axis st ax dz now rate = (st, false, false)) ∧
    (ax < -dz → st.negDir.held = true → rate ≤ now - st.negDir.lastEmit →
      poll_axis st ax dz now rate = (⟨⟨true, now⟩, st.posDir⟩, true, false)) ∧
    (dz < ax → st.posDir.held = true → rate ≤ now - st.posDir.lastEmit →
      poll_axis st ax dz now rate = (⟨st.negDir, ⟨true, now⟩⟩, false, true)) ∧
    (-dz ≤ ax → ax ≤ dz →
      poll_axis st ax dz now rate =
        (⟨⟨false, st.negDir.lastEmit⟩, ⟨false, st.posDir.lastEmit⟩⟩, false, false)) ∧
    (-dz ≤ ax → ax ≤ dz → ax2 < -dz →
      (poll_axis (poll_axis st ax dz now rate).1 ax2 dz now2 rate).2.1 = true) := by
  have hposn : dz < ax → ¬(ax < -dz) := fun h1 =>
    not_lt.mpr (le_trans (neg_nonpos.mpr hdz) (lt_of_le_of_lt hdz h1).le)
  refine ⟨?_, ?_, ?_, ?_, ?_, ?_, ?_, ?_⟩
  · intro h1 h2
    simp [poll_axis, axisZone, maybe_emit, h1, h2]
  · intro h1 h2
    simp [poll_axis, axisZone, maybe_emit, h1, h2, hposn h1]
  · intro h1 h2 h3
    simp [poll_axis, axisZone, maybe_emit, h1, h2, not_le.mpr h3]
  · intro h1 h2 h3
    simp [poll_axis, axisZone, maybe_emit, h1, h2, hposn h1, not_le.mpr h3]
  · intro h1 h2 h3
    simp [poll_axis, axisZone, maybe_emit, h1, h2, h3]
  · intro h1 h2 h3
    simp [poll_axis, axisZone, maybe_emit, h1, h2, hposn h1, h3]
  · intro h1 h2
    simp [poll_axis, axisZone, maybe_emit, not_lt.mpr h1, not_lt.mpr h2]
  · intro h1 h2 h3
    simp [poll_axis, axisZone, maybe_emit, not_lt.mpr h1, not_lt.mpr h2, h3]

/-- Witness for C6: with deadzone 3/5, pressing left at full deflection from
an un-held state emits immediately. -/
theorem gamepad_repeat_spec_witness :
    poll_axis ⟨⟨false, 0⟩, ⟨false, 0⟩⟩ (-1) (3/5) 100 120 =
      (⟨⟨true, 100⟩, ⟨false, 0⟩⟩, true, false) :=
  (gamepad_repeat_spec ⟨⟨false, 0⟩, ⟨false, 0⟩⟩ (-1) 0 (3/5) 100 0 120
    (by norm_num)).1 (by norm_num) rfl

/-! ### Claim C3 -/

set_option maxHeartbeats 4000000 in
/-- C3: `apply_update` executes its steps strictly in program order (every
trace is a sublist of metadata fetch, clone, fetch, checkout, reset, clean,
installer, state write); the clone step runs only when `SRC/.git` is absent;
a missing git or a failed metadata fetch returns code 1 before any git
command; a non-zero clone/fetch/checkout/reset exit code is returned
immediately and the installer never runs; and the state file is written only
after the installer has exited with code 0. -/
theorem apply_update_spec (branch : String) (env : ApplyEnv) :
    (apply_update branch env).trace.Sublist applyStepOrder ∧
    (Step.gitClone ∈ (apply_update branch env).trace → env.gitDirExists = false) ∧
    (env.gitAvailable = false → apply_update branch env = ⟨[], some 1, false⟩) ∧
    (∀ e b2, env.gitAvailable = true →
      remote_meta branch env.fetched = RMeta.err e b2 →
      apply_update branch env = ⟨[Step.fetchMeta], some 1, false⟩) ∧
    (env.gitAvailable = true → (remote_meta branch env.fetched).isOk = true →
      env.gitDirExists = false → env.rcClone ≠ 0 →
      (apply_update branch env).exitCode = some env.rcClone ∧
      Step.installer ∉ (apply_update branch env).trace ∧
      (apply_update branch env).stateWritten = false) ∧
    (env.gitAvailable = true → (remote_meta branch env.fetched).isOk = true →
      (env.gitDirExists = true ∨ env.rcClone = 0) → env.rcFetch ≠ 0 →
      (apply_update branch env).exitCode = some env.rcFetch ∧
      Step.installer ∉ (apply_update branch env).trace ∧
      (apply_update branch env).stateWritten = false) ∧
    (env.gitAvailable = true → (remote_meta branch env.fetched).isOk = true →
      (env.gitDirExists = true ∨ env.rcClone = 0) → env.rcFetch = 0 →
      env.rcCheckout ≠ 0 →
      (apply_update branch env).exitCode = some env.rcCheckout ∧
      Step.installer ∉ (apply_update branch env).trace ∧
      (apply_update branch env).stateWritten = false) ∧
    (env.gitAvailable = true → (remote_meta branch env.fetched).isOk = true →
      (env.gitDirExists = true ∨ env.rcClone = 0) → env.rcFetch = 0 →
      env.rcCheckout = 0 → env.rcReset ≠ 0 →
      (apply_update branch env).exitCode = some env.rcReset ∧
      Step.installer ∉ (apply_update branch env).trace ∧
      (apply_update branch env).stateWritten = false) ∧
    ((apply_update branch env).stateWritten = true →
      Step.installer ∈ (apply_update branch env).trace ∧
      env.rcInstaller = 0 ∧
      (apply_update branch env).exitCode = some 0) := by
  refine ⟨?_, ?_, ?_, ?_, ?_, ?_, ?_, ?_, ?_⟩
  · cases hmeta : remote_meta branch env.fetched with
    | err e b2 =>
        simp only [apply_update, hmeta, apply_update_after_meta]
        split_ifs <;> decide
    | ok b2 sha d u =>
        simp only [apply_update, hmeta, apply_update_after_meta]
        split_ifs <;> (try dsimp only) <;> decide
  · cases hmeta : remote_meta branch env.fetched with
    | err e b2 =>
        simp only [apply_update, hmeta, apply_update_after_meta]
        split_ifs <;> intro hmem <;> simp_all
    | ok b2 sha d u =>
        simp only [apply_update, hmeta, apply_update_after_meta]
        split_ifs <;> intro hmem <;> simp_all
  · intro hg
    simp [apply_update, hg]
  · intro e b2 hg hmeta
    simp [apply_update, hmeta, apply_update_after_meta, hg]
  · intro hg hok hdir hclone
    cases hmeta : remote_meta branch env.fetched with
    | err e2 b3 => rw [hmeta] at hok; simp [RMeta.isOk] at hok
    | ok b3 s3 d3 u3 =>
        simp [apply_update, hmeta, apply_update_after_meta, hg, hdir, hclone]
  · intro hg hok hdir hfetch
    cases hmeta : remote_meta branch env.fetched with
    | err e2 b3 => rw [hmeta] at hok; simp [RMeta.isOk] at hok
    | ok b3 s3 d3 u3 =>
        have hcond : ¬(env.gitDirExists = false ∧ env.rcClone ≠ 0) := by
          rcases hdir with h | h <;> simp [h]
        rcases hdir with h | h <;>
          simp [apply_update, hmeta, apply_update_after_meta, hg, hcond, hfetch, h]
  · intro hg hok hdir hfetch hco
    cases hmeta : remote_meta branch env.fetched with
    | err e2 b3 => rw [hmeta] at hok; simp [RMeta.isOk] at hok
    | ok b3 s3 d3 u3 =>
        have hcond : ¬(env.gitDirExists = false ∧ env.rcClone ≠ 0) := by
          rcases hdir with h | h <;> simp [h]
        rcases hdir with h | h <;>
          simp [apply_update, hmeta, apply_update_after_meta, hg, hcond, hfetch, hco, h]
  · intro hg hok hdir hfetch hco hreset
    cases hmeta : remote_meta branch env.fetched with
    | err e2 b3 => rw [hmeta] at hok; simp [RMeta.isOk] at hok
    | ok b3 s3 d3 u3 =>
        have hcond : ¬(env.gitDirExists = false ∧ env.rcClone ≠ 0) := by
          rcases hdir with h | h <;> simp [h]
        rcases hdir with h | h <;>
          simp [apply_update, hmeta, apply_update_after_meta, hg, hcond, hfetch, hco,
            hreset, h]
  · cases hmeta : remote_meta branch env.fetched with
    | err e b2 =>
        simp only [apply_update, hmeta, apply_update_after_meta]
        split_ifs <;> intro hw <;> simp_all
    | ok b2 sha d u =>
        simp only [apply_update, hmeta, apply_update_after_meta]
        split_ifs <;> intro hw <;> simp_all

/-- Witness for C3: a fully successful run writes the state file after the
installer and follows the canonical step order. -/
theorem apply_update_spec_witness :
    (apply_update "windows"
        ⟨true, Except.ok ⟨"abc", "", ""⟩, false, 0, 0, 0, 0, 0, true,
         InstallerKind.batCmd, false, 0, true⟩).stateWritten = true →
    Step.installer ∈ (apply_update "windows"
        ⟨true, Except.ok ⟨"abc", "", ""⟩, false, 0, 0, 0, 0, 0, true,
         InstallerKind.batCmd, false, 0, true⟩).trace :=
  fun hw =>
    ((apply_update_spec "windows"
        ⟨true, Except.ok ⟨"abc", "", ""⟩, false, 0, 0, 0, 0, 0, true,
         InstallerKind.batCmd, false, 0, true⟩).2.2.2.2.2.2.2.2 hw).1

/-! ### Claim C2 -/

theorem extract_last_heredoc_spec (text target : List Char) :
    (extract_last_heredoc text target = Except.ok none ↔
        ∀ i mk, ¬ OccursAt text target i mk) ∧
    (∀ mk tail, lastOpening target text = some (mk, tail) →
      ((∃ i, OccursAt text target i mk ∧
          text.drop i = openingFull target mk ++ tail) ∧
        (∀ j mk2, ¬ OccursAt tail target j mk2)) ∧
      (findSub (endToken mk) tail = none →
        (extract_last_heredoc text target = Except.error () ∧
         ∀ j, ¬ endToken mk <+: tail.drop j)) ∧
      (∀ idx, findSub (endToken mk) tail = some idx →
        (endToken mk <+: tail.drop idx) ∧
        (∀ j, j < idx → ¬ endToken mk <+: tail.drop j) ∧
        ((tail.take idx = [] ∨ (tail.take idx).getLast? = some newlineChar) →
          extract_last_heredoc text target = Except.ok (some (tail.take idx))) ∧
        (tail.take idx ≠ [] → (tail.take idx).getLast? ≠ some newlineChar →
          extract_last_heredoc text target =
            Except.ok (some (tail.take idx ++ [newlineChar]))))) := by
  constructor
  · constructor
    · intro h
      cases hl : lastOpening target text with
      | none =>
          have hall := (scanLastAux_none_iff target text.length text (Nat.le_refl _)).mp hl
          exact no_match_iff_no_occurs.mp hall
      | some pr =>
          obtain ⟨mk, tail⟩ := pr
          unfold extract_last_heredoc at h
          rw [hl] at h
          dsimp only at h
          cases hf : findSub (endToken mk) tail with
          | none => rw [hf] at h; exact absurd h (by simp)
          | some idx =>
              rw [hf] at h
              dsimp only at h
              split_ifs at h <;> exact absurd h (by simp)
    · intro h
      have hnone : lastOpening target text = none := by
        rw [lastOpening, scanLastAux_none_iff target text.length text (Nat.le_refl _)]
        exact no_match_iff_no_occurs.mpr h
      unfold extract_last_heredoc
      rw [hnone]
  · intro mk tail hl
    obtain ⟨hne, hq, ⟨i, hi⟩, hafter⟩ :=
      scanLastAux_some target text.length text mk tail (Nat.le_refl _) hl
    refine ⟨⟨⟨i, ⟨hne, hq, ⟨tail, hi.symm⟩⟩, hi⟩, no_match_iff_no_occurs.mp hafter⟩,
      ?_, ?_⟩
    · intro hf
      constructor
      · unfold extract_last_heredoc
        rw [hl]
        dsimp only
        rw [hf]
      · exact (findSub_none_iff tail).mp hf
    · intro idx hf
      obtain ⟨hp1, hp2⟩ := findSub_some tail idx hf
      refine ⟨hp1, hp2, ?_, ?_⟩
      · intro hcase
        have hneg : ¬(tail.take idx ≠ [] ∧
            (tail.take idx).getLast? ≠ some newlineChar) := by
          rcases hcase with h | h
          · intro hc; exact hc.1 h
          · intro hc; exact hc.2 h
        unfold extract_last_heredoc
        rw [hl]
        dsimp only
        rw [hf]
        dsimp only
        rw [if_neg hneg]
      · intro h1 h2
        unfold extract_last_heredoc
        rw [hl]
        dsimp only
        rw [hf]
        dsimp only
        rw [if_pos ⟨h1, h2⟩]

theorem extract_last_heredoc_line_counterexample :
    hasOpeningLine ['t'] cexTextC2 = false ∧
    extract_last_heredoc cexTextC2 ['t'] =
      Except.ok (some ("body".toList ++ [newlineChar])) ∧
    Except.ok (some ("body".toList ++ [newlineChar])) ≠
      (Except.ok none : Except Unit (Option (List Char))) := by
  refine ⟨by decide, by rfl, by simp⟩

theorem extract_last_heredoc_spec_witness :
    extract_last_heredoc witTextC2 ['t'] =
      Except.ok (some ("body".toList ++ [newlineChar])) :=
  ((((extract_last_heredoc_spec witTextC2 ['t']).2 ['M']
      ("body".toList ++ [newlineChar, 'M', newlineChar] ++ "after".toList)
      (by decide)).2.2) 4 (by decide)).2.2.2 (by decide) (by decide)

/-! ### Claim C5 -/


theorem extract_payload_main_spec (srcExists : Bool) (text : List Char) :
    (srcExists = false →
      extract_payload_main srcExists text = ⟨some 2, [], none⟩) ∧
    ((∀ t ∈ TARGETS, extract_last_heredoc text t.1 ≠ Except.error ()) →
      (extract_payload_main true text).written = writtenSpec text TARGETS ∧
      ((∃ t ∈ TARGETS, t.2.2 = true ∧
          extract_last_heredoc text t.1 = Except.ok none) →
        (extract_payload_main true text).exitCode = some 3 ∧
        (extract_payload_main true text).manifestCount = none) ∧
      ((∀ t ∈ TARGETS, t.2.2 = true →
          extract_last_heredoc text t.1 ≠ Except.ok none) →
        (extract_payload_main true text).exitCode = some 0 ∧
        (extract_payload_main true text).manifestCount =
          some (extract_payload_main true text).written.length)) := by
  constructor
  · intro h
    subst h
    rfl
  · intro hno
    have hloop := extractLoop_no_error text TARGETS hno
    refine ⟨?_, ?_, ?_⟩
    · simp only [extract_payload_main, hloop, Bool.true_eq_false, if_false]
      split_ifs <;> rfl
    · intro hex
      have hmiss : missingSpec text TARGETS ≠ [] := by
        intro hnil
        rw [missingSpec, List.filterMap_eq_nil_iff] at hnil
        obtain ⟨t, ht, hreq, hok⟩ := hex
        have := hnil t ht
        rw [hok, hreq] at this
        simp at this
      simp only [extract_payload_main, hloop]
      simp [hmiss]
    · intro hall
      have hmiss : missingSpec text TARGETS = [] := by
        rw [missingSpec, List.filterMap_eq_nil_iff]
        intro t ht
        cases hx : extract_last_heredoc text t.1 with
        | error e => rfl
        | ok res =>
            cases res with
            | some b => rfl
            | none =>
                cases hreq : t.2.2 with
                | false => simp [hreq]
                | true => exact absurd hx (hall t ht hreq)
      simp only [extract_payload_main, hloop]
      simp [hmiss]

/-- Witness for the amended C5 at the empty source text: everything parses
(no heredoc is unterminated), no required heredoc is found, exit code 3. -/
theorem extract_payload_main_spec_witness :
    (extract_payload_main true []).exitCode = some 3 :=
  (((extract_payload_main_spec true []).2 (by decide)).2.1 (by decide)).1

theorem extract_payload_main_counterexample :
    (extract_payload_main true cexBadTextC5).exitCode = none ∧
    (extract_payload_main true cexBadTextC5).written = [] ∧
    extract_last_heredoc cexBadTextC5 "$BIN_DIR/xui_webhub.py".toList =
      Except.ok (some ("print(1)".toList ++ [newlineChar])) := by
  refine ⟨by rfl, by rfl, by rfl⟩

/-! ### Claim C9 -/

theorem dedent_min_indent_spec (lines : List (List Char)) :
    (∀ ln ∈ lines, isBlankLine ln = false → minIndent lines ≤ leadWS ln) ∧
    ((∃ ln ∈ lines, isBlankLine ln = false) →
      ∃ ln ∈ lines, isBlankLine ln = false ∧ leadWS ln = minIndent lines) ∧
    (dedentLines lines).length = lines.length ∧
    (∀ i, i < lines.length →
      (dedentLines lines).getD i [] = (lines.getD i []).drop (minIndent lines)) ∧
    (∀ i, i < lines.length →
      (dedentLines lines).getD i [] <:+ lines.getD i []) ∧
    (∀ i, i < lines.length → isBlankLine (lines.getD i []) = false →
      leadWS ((dedentLines lines).getD i []) + minIndent lines =
        leadWS (lines.getD i [])) ∧
    (∀ t : List Char, lstripNewlines t <:+ t ∧
      ∃ k, lstripNewlines t = t.drop k ∧ ∀ c ∈ t.take k, c = newlineChar) ∧
    ((dedentLines (pyDedent lines)).length = lines.length ∧
     (∀ i, i < lines.length →
        (dedentLines (pyDedent lines)).getD i [] <:+ lines.getD i []) ∧
     (∀ i, i < lines.length → isBlankLine (lines.getD i []) = false →
        leadWS ((dedentLines (pyDedent lines)).getD i []) +
          (minIndent (pyDedent lines) + (marginOf lines).length) =
          leadWS (lines.getD i []))) := by
  refine ⟨?_, ?_, dedentLines_length lines, dedentLines_getD lines, ?_, ?_,
    lstripNewlines_spec, ?_, ?_, ?_⟩
  · intro ln hm hnb
    exact minIndent_le hm hnb
  · exact minIndent_attained
  · intro i h
    rw [dedentLines_getD lines i h]
    exact drop_suffix_of _ _
  · intro i h hnb
    rw [dedentLines_getD lines i h]
    exact leadWS_drop _ _ (minIndent_le (getD_mem_of_lt lines i h) hnb)
  · rw [dedentLines_length, pyDedent_length]
  · intro i h
    have hp : i < (pyDedent lines).length := by rw [pyDedent_length]; exact h
    rw [dedentLines_getD (pyDedent lines) i hp]
    exact (drop_suffix_of _ _).trans (pyDedent_getD_suffix h)
  · intro i h hnb
    have hp : i < (pyDedent lines).length := by rw [pyDedent_length]; exact h
    have hmem := getD_mem_of_lt lines i h
    obtain ⟨_, hmg⟩ := margin_facts hmem hnb
    have hpg := pyDedent_getD_nonblank h hnb
    have hb2 : isBlankLine ((pyDedent lines).getD i []) = false := by
      rw [hpg, isBlank_drop _ _ hmg]
      exact hnb
    have hlead2 : leadWS ((pyDedent lines).getD i []) + (marginOf lines).length =
        leadWS (lines.getD i []) := by
      rw [hpg]
      exact leadWS_drop _ _ hmg
    have hm2 : minIndent (pyDedent lines) ≤ leadWS ((pyDedent lines).getD i []) :=
      minIndent_le (getD_mem_of_lt (pyDedent lines) i hp) hb2
    rw [dedentLines_getD (pyDedent lines) i hp]
    have hlead3 := leadWS_drop ((pyDedent lines).getD i [])
      (minIndent (pyDedent lines)) hm2
    omega

theorem dedent_min_indent_spec_witness :
    leadWS ((dedentLines [[' ', ' ', 'a'], [' ', 'b']]).getD 0 []) +
      minIndent [[' ', ' ', 'a'], [' ', 'b']] =
      leadWS ([[' ', ' ', 'a'], [' ', 'b']].getD 0 []) :=
  (dedent_min_indent_spec [[' ', ' ', 'a'], [' ', 'b']]).2.2.2.2.2.1 0
    (by decide) (by decide)
